import Mathlib

/-!
Verification of the hybrid-retrieval core of `src/rag/dual_rag.py`
(`MedicalRAGSystem` and its offline embedding function).

The Python code is shallowly embedded below:
* Python `str.split()` / `str.lower()` / `' '.join` become `pySplit`,
  `pyLower`, `pyJoin`;
* Python dicts built by comprehensions become association lists with
  Python's insertion-order/last-write-wins semantics (`pyDict`);
* machine floats are modelled by `ℚ` (all arithmetic in the fused-score,
  BM25-postprocessing and chunking paths is exact in the regimes the
  claims quantify over);
* the third-party collaborators (`rank_bm25.BM25Okapi.get_scores`,
  the ChromaDB collection) are not part of this repository and are
  modelled as abstract function parameters; everything written in
  `dual_rag.py` itself (tokenisation, argsort post-processing, score
  fusion, error handling, state mutation) is translated definitionally.
-/

namespace DualRag

/-! ## Python string primitives -/

/-- Worker for Python `str.split()`: walk the characters keeping the
current (reversed) in-progress word, emitting a word at each maximal
non-whitespace run. -/
def pySplitAux : List Char → List Char → List String
  | [], cur => if cur.isEmpty then [] else [String.mk cur.reverse]
  | c :: cs, cur =>
      if c.isWhitespace then
        if cur.isEmpty then pySplitAux cs [] else String.mk cur.reverse :: pySplitAux cs []
      else pySplitAux cs (c :: cur)

/-- Python `str.split()` with no argument: split on whitespace runs,
discarding empty pieces. -/
def pySplit (s : String) : List String :=
  pySplitAux s.data []

/-- Python `str.lower()` (ASCII-adequate model). -/
def pyLower (s : String) : String :=
  String.mk (s.data.map Char.toLower)

/-- Python `text.lower().split()` as used for tokenisation throughout the file. -/
def pyLowerSplit (s : String) : List String :=
  pySplit (pyLower s)

/-- Python `sep.join(ws)`. -/
def pyJoin (sep : String) : List String → String
  | [] => ""
  | w :: ws => ws.foldl (fun acc x => acc ++ sep ++ x) w

theorem pySplitAux_ne_empty : ∀ (cs cur : List Char), ∀ w ∈ pySplitAux cs cur, w ≠ ""
  | [], cur, w, hw => by
      by_cases hc : cur.isEmpty <;> simp [pySplitAux, hc] at hw
      subst hw
      intro hcontra
      have : cur.reverse = [] := by
        simpa using congrArg String.data hcontra
      simp [List.isEmpty_iff] at hc
      simp_all
  | c :: cs, cur, w, hw => by
      by_cases hws : c.isWhitespace
      · by_cases hc : cur.isEmpty
        · simp [pySplitAux, hws, hc] at hw
          exact pySplitAux_ne_empty cs [] w hw
        · simp [pySplitAux, hws, hc] at hw
          rcases hw with hw | hw
          · subst hw
            intro hcontra
            have : cur.reverse = [] := by simpa using congrArg String.data hcontra
            simp [List.isEmpty_iff] at hc
            simp_all
          · exact pySplitAux_ne_empty cs [] w hw
      · simp [pySplitAux, hws] at hw
        exact pySplitAux_ne_empty cs (c :: cur) w hw

theorem pySplit_ne_empty {s : String} {w : String} (h : w ∈ pySplit s) : w ≠ "" :=
  pySplitAux_ne_empty s.data [] w h

theorem pyJoin_length_ge (sep : String) (w : String) (ws : List String) :
    w.length ≤ (pyJoin sep (w :: ws)).length := by
  show w.length ≤ (ws.foldl (fun acc x => acc ++ sep ++ x) w).length
  induction ws generalizing w with
  | nil => exact le_rfl
  | cons x xs ih =>
      refine le_trans ?_ (ih (w ++ sep ++ x))
      simp [String.length_append]
      omega

theorem pyJoin_ne_empty (sep : String) (w : String) (ws : List String) (hw : w ≠ "") :
    pyJoin sep (w :: ws) ≠ "" := by
  intro hcontra
  have hlen : w.length ≤ (pyJoin sep (w :: ws)).length := pyJoin_length_ge sep w ws
  rw [hcontra] at hlen
  have : w.length = 0 := Nat.le_zero.mp hlen
  exact hw (by cases w with | mk l => cases l <;> simp_all [String.length])

/-! ## Chunker (`MedicalRAGSystem.chunk_text`)

```python
def chunk_text(self, text, chunk_size=1000, overlap=200):
    words = text.split()
    chunks = []
    for i in range(0, len(words), chunk_size - overlap):
        chunk = ' '.join(words[i:i + chunk_size])
        if chunk:
            chunks.append(chunk)
    return chunks
```

`range(0, n, step)`:
* `step = 0` raises `ValueError` (modelled with `Except.error`);
* `step < 0` yields no indices at all for `n ≥ 0`, so the loop body never
  runs and the empty chunk list is returned;
* `step > 0` yields `0, step, 2*step, ...` strictly below `n`,
  i.e. `ceil(n/step)` indices.
-/

/-- The start indices produced by `range(0, n, step)` for `step > 0`. -/
def chunkStarts (n step : Nat) : List Nat :=
  (List.range ((n + step - 1) / step)).map (fun q => q * step)

/-- The word window `words[i:i+chunk_size]` for a start index. -/
def chunkWindow (words : List String) (chunk_size i : Nat) : List String :=
  (words.drop i).take chunk_size

/-- Model of `MedicalRAGSystem.chunk_text`: `words = text.split()`, the loop stride
is the Python integer `chunk_size - overlap`, and the returned value is
`Except.error` exactly when the Python call raises. -/
def chunk_text (text : String) (chunk_size overlap : Nat) : Except String (List String) :=
  if ((chunk_size : Int) - (overlap : Int)) = 0 then
    Except.error ("ValueError: range arg 3 must not be zero")
  else if ((chunk_size : Int) - (overlap : Int)) < 0 then
    Except.ok []
  else
    Except.ok (((chunkStarts (pySplit text).length
        ((chunk_size : Int) - (overlap : Int)).toNat).map
        (fun i => pyJoin (" ") (chunkWindow (pySplit text) chunk_size i))).filter
        (fun c => c ≠ ""))

theorem mem_chunkStarts {n step q : Nat} (hq : q < (n + step - 1) / step) :
    q * step ∈ chunkStarts n step := by
  exact List.mem_map.mpr ⟨q, List.mem_range.mpr hq, rfl⟩

theorem chunkStarts_covers {n step : Nat} (hstep : 0 < step) {j : Nat} (hj : j < n) :
    ∃ i ∈ chunkStarts n step, i ≤ j ∧ j < i + step := by
  refine ⟨j / step * step, ?_, Nat.div_mul_le_self j step, ?_⟩
  · apply mem_chunkStarts
    have h2 : (n + step - 1) / step = (n - 1) / step + 1 := by
      have h3 : n + step - 1 = (n - 1) + step := by omega
      rw [h3, Nat.add_div_right _ hstep]
    have h1 : j / step ≤ (n - 1) / step := Nat.div_le_div_right (by omega)
    omega
  · have hmod : j % step < step := Nat.mod_lt j hstep
    have hdm : step * (j / step) + j % step = j := Nat.div_add_mod j step
    have hcomm : step * (j / step) = j / step * step := Nat.mul_comm _ _
    omega

theorem chunkWindow_subset (words : List String) (chunk_size i : Nat) :
    chunkWindow words chunk_size i ⊆ words :=
  ((List.take_sublist _ _).trans (List.drop_sublist _ _)).subset

theorem chunkWindow_length (words : List String) (chunk_size i : Nat) :
    (chunkWindow words chunk_size i).length = min chunk_size (words.length - i) := by
  simp [chunkWindow]

/-- C2 COUNTEREXAMPLE.  The claim says every configuration with
`overlap >= chunk_size` raises a configuration error at call time.  But for
`overlap` strictly greater than `chunk_size` the Python stride
`chunk_size - overlap` is negative, `range(0, len(words), stride)` is simply
empty, and `chunk_text` silently returns the empty chunk list without
raising: here `chunk_text("a b c", chunk_size=1, overlap=2)` returns `[]`. -/
theorem c2_counterexample : chunk_text ("a b c") 1 2 = Except.ok [] := by rfl

/-- C2, amended.  Only the boundary case `overlap = chunk_size` raises at
call time (the `ValueError` coming from a zero `range` stride); for
`overlap > chunk_size` the function silently returns the empty chunk list —
it still never loops forever and never produces a zero-length chunk, but it
does not fail fast. -/
theorem c2_amended (text : String) (chunk_size overlap : Nat) (h : chunk_size ≤ overlap) :
    (overlap = chunk_size →
      chunk_text text chunk_size overlap =
        Except.error ("ValueError: range arg 3 must not be zero")) ∧
    (chunk_size < overlap → chunk_text text chunk_size overlap = Except.ok []) := by
  constructor
  · intro heq
    subst heq
    simp [chunk_text]
  · intro hlt
    have h0 : ¬ ((chunk_size : Int) - (overlap : Int) = 0) := by omega
    have h1 : (chunk_size : Int) - (overlap : Int) < 0 := by omega
    simp [chunk_text, h0, h1]

/-- Witness for `c2_amended` at `chunk_size = 1`, `overlap = 2`. -/
theorem c2_witness :
    (1 : Nat) ≤ 2 ∧
    (((2 : Nat) = 1 →
      chunk_text ("hello world") 1 2 =
        Except.error ("ValueError: range arg 3 must not be zero")) ∧
     ((1 : Nat) < 2 → chunk_text ("hello world") 1 2 = Except.ok [])) :=
  ⟨by decide, c2_amended ("hello world") 1 2 (by decide)⟩

/-- C8.  For `chunk_size > overlap >= 0` the chunker returns normally; every
returned chunk is the space-join of a window of at most `chunk_size` words,
and every word of the input lies in at least one window whose join is among
the returned chunks (gap-free coverage). -/
theorem c8_chunk_bounds_coverage (text : String) (chunk_size overlap : Nat)
    (h : overlap < chunk_size) :
    ∃ chunks, chunk_text text chunk_size overlap = Except.ok chunks ∧
      (∀ c ∈ chunks, ∃ i,
          c = pyJoin (" ") (chunkWindow (pySplit text) chunk_size i) ∧
          (chunkWindow (pySplit text) chunk_size i).length ≤ chunk_size) ∧
      (∀ j (hj : j < (pySplit text).length),
        ∃ i ∈ chunkStarts (pySplit text).length (chunk_size - overlap),
          (pySplit text).get ⟨j, hj⟩ ∈ chunkWindow (pySplit text) chunk_size i ∧
          pyJoin (" ") (chunkWindow (pySplit text) chunk_size i) ∈ chunks) := by
  have h0 : ¬ ((chunk_size : Int) - (overlap : Int) = 0) := by omega
  have h1 : ¬ ((chunk_size : Int) - (overlap : Int) < 0) := by omega
  have htn : ((chunk_size : Int) - (overlap : Int)).toNat = chunk_size - overlap := by omega
  refine ⟨((chunkStarts (pySplit text).length (chunk_size - overlap)).map
      (fun i => pyJoin (" ") (chunkWindow (pySplit text) chunk_size i))).filter
      (fun c => c ≠ ""), ?_, ?_, ?_⟩
  · unfold chunk_text
    rw [if_neg h0, if_neg h1, htn]
  · intro c hc
    have hc' := (List.mem_filter.mp hc).1
    obtain ⟨i, _, hi2⟩ := List.mem_map.mp hc'
    exact ⟨i, hi2.symm, by
      rw [chunkWindow_length]
      exact min_le_left _ _⟩
  · intro j hj
    have hstep : 0 < chunk_size - overlap := by omega
    obtain ⟨i, hi_mem, hij, hji⟩ := chunkStarts_covers hstep hj
    have hstep_le : chunk_size - overlap ≤ chunk_size := Nat.sub_le _ _
    have hjc : j < i + chunk_size := by omega
    refine ⟨i, hi_mem, ?_, ?_⟩
    · -- the j-th word is in the window starting at i
      have hlt : j - i < (chunkWindow (pySplit text) chunk_size i).length := by
        rw [chunkWindow_length]
        omega
      have hgetq : (chunkWindow (pySplit text) chunk_size i)[j - i]? =
          (pySplit text)[j]? := by
        rw [chunkWindow]
        rw [List.getElem?_take_of_lt (by omega)]
        rw [List.getElem?_drop]
        congr 1
        omega
      have hsome : (chunkWindow (pySplit text) chunk_size i)[j - i]? =
          some ((pySplit text).get ⟨j, hj⟩) := by
        rw [hgetq, List.getElem?_eq_getElem hj]
        rfl
      exact List.getElem?_mem hsome
    · -- the window's join survives the nonemptiness filter
      apply List.mem_filter.mpr
      refine ⟨List.mem_map.mpr ⟨i, hi_mem, rfl⟩, ?_⟩
      have hwne : chunkWindow (pySplit text) chunk_size i ≠ [] := by
        have : 0 < (chunkWindow (pySplit text) chunk_size i).length := by
          rw [chunkWindow_length]
          omega
        exact List.ne_nil_of_length_pos this
      obtain ⟨w0, rest, hcons⟩ := List.exists_cons_of_ne_nil hwne
      rw [hcons]
      have hw0 : w0 ∈ pySplit text := by
        apply chunkWindow_subset (pySplit text) chunk_size i
        rw [hcons]
        exact List.mem_cons_self _ _
      simpa using pyJoin_ne_empty (" ") w0 rest (pySplit_ne_empty hw0)

/-- Witness for `c8_chunk_bounds_coverage` at `text = "a b c"`,
`chunk_size = 2`, `overlap = 1`. -/
theorem c8_witness :
    (1 : Nat) < 2 ∧
    ∃ chunks, chunk_text ("a b c") 2 1 = Except.ok chunks ∧
      (∀ c ∈ chunks, ∃ i,
          c = pyJoin (" ") (chunkWindow (pySplit ("a b c")) 2 i) ∧
          (chunkWindow (pySplit ("a b c")) 2 i).length ≤ 2) ∧
      (∀ j (hj : j < (pySplit ("a b c")).length),
        ∃ i ∈ chunkStarts (pySplit ("a b c")).length (2 - 1),
          (pySplit ("a b c")).get ⟨j, hj⟩ ∈ chunkWindow (pySplit ("a b c")) 2 i ∧
          pyJoin (" ") (chunkWindow (pySplit ("a b c")) 2 i) ∈ chunks) :=
  ⟨by decide, c8_chunk_bounds_coverage ("a b c") 2 1 (by decide)⟩

/-! ## Documents and lexical (BM25) search

A well-formed document as indexed by `MedicalRAGSystem`:
`{'id': ..., 'type': ..., 'title': ..., 'content': ..., 'source': ...}`. -/

structure Doc where
  id : Nat
  type : String
  title : String
  content : String
  source : String
  deriving DecidableEq, Repr, Inhabited

/-- The order realised by a stable ascending argsort of `scores`:
position `i` precedes `j` when its score is smaller, or, on equal scores,
when `i ≤ j`. -/
def ascLex (scores : List ℚ) (i j : Nat) : Prop :=
  scores.getD i 0 < scores.getD j 0 ∨ (scores.getD i 0 = scores.getD j 0 ∧ i ≤ j)

/-- The reversal of `ascLex`: descending scores, ties by larger index first. -/
def descLex (scores : List ℚ) (i j : Nat) : Prop :=
  ascLex scores j i

instance ascLexDec (scores : List ℚ) : DecidableRel (ascLex scores) := fun i j => by
  unfold ascLex
  exact inferInstance

instance descLexDec (scores : List ℚ) : DecidableRel (descLex scores) := fun i j => by
  unfold descLex ascLex
  exact inferInstance

instance ascLexTotal (scores : List ℚ) : IsTotal Nat (ascLex scores) := ⟨fun i j => by
  unfold ascLex
  rcases lt_trichotomy (scores.getD i 0) (scores.getD j 0) with h | h | h
  · exact Or.inl (Or.inl h)
  · rcases Nat.le_total i j with hij | hij
    · exact Or.inl (Or.inr ⟨h, hij⟩)
    · exact Or.inr (Or.inr ⟨h.symm, hij⟩)
  · exact Or.inr (Or.inl h)⟩

instance ascLexTrans (scores : List ℚ) : IsTrans Nat (ascLex scores) := ⟨fun a b c hab hbc => by
  unfold ascLex at *
  rcases hab with h1 | ⟨h1, h1'⟩ <;> rcases hbc with h2 | ⟨h2, h2'⟩
  · exact Or.inl (h1.trans h2)
  · exact Or.inl (h2 ▸ h1)
  · exact Or.inl (h1 ▸ h2)
  · exact Or.inr ⟨h1.trans h2, h1'.trans h2'⟩⟩

instance ascLexAntisymm (scores : List ℚ) : IsAntisymm Nat (ascLex scores) := ⟨fun a b hab hba => by
  unfold ascLex at *
  rcases hab with h1 | ⟨h1, h1'⟩ <;> rcases hba with h2 | ⟨h2, h2'⟩
  · exact absurd (h1.trans h2) (lt_irrefl _)
  · exact absurd (h2 ▸ h1) (lt_irrefl _)
  · exact absurd (h1 ▸ h2) (lt_irrefl _)
  · exact Nat.le_antisymm h1' h2'⟩

instance descLexTotal (scores : List ℚ) : IsTotal Nat (descLex scores) :=
  ⟨fun i j => (ascLexTotal scores).total j i⟩

instance descLexTrans (scores : List ℚ) : IsTrans Nat (descLex scores) :=
  ⟨fun a b c hab hbc => (ascLexTrans scores).trans c b a hbc hab⟩

instance descLexAntisymm (scores : List ℚ) : IsAntisymm Nat (descLex scores) :=
  ⟨fun a b hab hba => (ascLexAntisymm scores).antisymm a b hba hab⟩

/-- Model of `np.argsort(scores)` (ascending, stable: ties in index order — numpy
falls back to an insertion sort, which is stable, on the short arrays all
the concrete cases below use). -/
def argsortAsc (scores : List ℚ) : List Nat :=
  List.insertionSort (ascLex scores) (List.range scores.length)

/-- Python/numpy slice `l[-k:]`.  Note `l[-0:]` is the whole list. -/
def pyNegSlice (l : List α) (k : Nat) : List α :=
  if k = 0 then l else l.drop (l.length - k)

/-- The slice `np.argsort(scores)[-top_k:][::-1]` as computed by `bm25_search`. -/
def topIndices (scores : List ℚ) (top_k : Nat) : List Nat :=
  (pyNegSlice (argsortAsc scores) top_k).reverse

/-- The result-assembly loop of `bm25_search`: walk the candidate indices,
keep those with a strictly positive score, and pair each surviving
document with its score. -/
def bm25_hits (docs : List Doc) (scores : List ℚ) (top_k : Nat) : List (Doc × ℚ) :=
  ((topIndices scores top_k).filter (fun i => 0 < scores.getD i 0)).map
    (fun i => (docs.getD i default, scores.getD i 0))

/-- Model of `MedicalRAGSystem.bm25_search` over a built index.  The scoring
function `get_scores` stands for `rank_bm25.BM25Okapi.get_scores`, a
third-party library external to this repository; everything else
(tokenisation of the query by `query.lower().split()`, argsort slicing,
positive-score filtering, document resolution) is the code of
`bm25_search` itself. -/
def bm25_search (get_scores : List String → List ℚ) (docs : List Doc)
    (query : String) (top_k : Nat) : List (Doc × ℚ) :=
  bm25_hits docs (get_scores (pyLowerSplit query)) top_k

theorem argsortAsc_reverse (scores : List ℚ) :
    (argsortAsc scores).reverse =
      List.insertionSort (descLex scores) (List.range scores.length) := by
  apply List.eq_of_perm_of_sorted (r := descLex scores)
  · exact ((List.reverse_perm _).trans (List.perm_insertionSort _ _)).trans
      (List.perm_insertionSort _ _).symm
  · exact List.pairwise_reverse.mpr
      (List.sorted_insertionSort (ascLex scores) (List.range scores.length))
  · exact List.sorted_insertionSort (descLex scores) (List.range scores.length)

theorem topIndices_eq (scores : List ℚ) (top_k : Nat) (hk : 1 ≤ top_k) :
    topIndices scores top_k =
      (List.insertionSort (descLex scores) (List.range scores.length)).take top_k := by
  unfold topIndices pyNegSlice
  rw [if_neg (by omega)]
  have hr : (argsortAsc scores).drop ((argsortAsc scores).length - top_k) =
      ((argsortAsc scores).reverse.take top_k).reverse := by
    have := List.rtake_eq_reverse_take_reverse (l := argsortAsc scores) (n := top_k)
    rw [List.rtake] at this
    exact this
  rw [hr, List.reverse_reverse, argsortAsc_reverse]

/-- Corpus for the C3 counterexample: documents 1 and 2 have identical
content (hence provably identical BM25 scores for any scoring), documents
3..5 differ; with the query term in a minority of documents the BM25 score
of documents 1 and 2 is strictly positive (e.g. `ln(3.5/2.5) * 2.5/2.5`),
so the score profile `[c, c, 0, 0, 0]` used below is realisable by
`rank_bm25.BM25Okapi` on this corpus. -/
def docsC3 : List Doc :=
  [⟨1, "book_chunk", "Chunk 1", "apple", "s"⟩,
   ⟨2, "book_chunk", "Chunk 2", "apple", "s"⟩,
   ⟨3, "book_chunk", "Chunk 3", "x", "s"⟩,
   ⟨4, "book_chunk", "Chunk 4", "y", "s"⟩,
   ⟨5, "book_chunk", "Chunk 5", "z", "s"⟩]

/-- The tied positive score profile for `docsC3`. -/
def gsC3 : List String → List ℚ := fun _ => [2, 2, 0, 0, 0]

/-- C3 COUNTEREXAMPLE.  Documents 0 and 1 (ids 1 and 2) tie with the same
strictly positive score, yet `bm25_search` returns the LATER-inserted
document (id 2) first: `np.argsort` is ascending and stable, so equal
scores sit in index order, and the final `[::-1]` reversal flips them to
reverse insertion order.  The claim's tie rule (earlier-inserted first)
would require ids `[1, 2]`; the code produces `[2, 1]`. -/
theorem c3_counterexample :
    (bm25_search gsC3 docsC3 ("apple") 2).map (fun h => (h.1.id, h.2)) =
      [(2, 2), (1, 2)] := by decide

/-- C3, amended.  `bm25_search` tokenises the query by
`query.lower().split()`, scores every document, and returns the `top_k`
highest-scoring documents restricted to score > 0 — but ties between
equal-scoring documents are broken by REVERSE insertion order
(later-inserted document first): the result is exactly the positive-score
filtering of the first `top_k` positions of `range(n)` sorted by
(score descending, index descending). -/
theorem c3_amended (get_scores : List String → List ℚ) (docs : List Doc)
    (query : String) (top_k : Nat) (hk : 1 ≤ top_k) :
    bm25_search get_scores docs query top_k =
      (((List.insertionSort (descLex (get_scores (pyLowerSplit query)))
          (List.range (get_scores (pyLowerSplit query)).length)).take top_k).filter
        (fun i => 0 < (get_scores (pyLowerSplit query)).getD i 0)).map
        (fun i => (docs.getD i default, (get_scores (pyLowerSplit query)).getD i 0)) := by
  unfold bm25_search bm25_hits
  rw [topIndices_eq _ _ hk]

/-- Witness for `c3_amended` on a two-document corpus. -/
theorem c3_witness :
    1 ≤ 2 ∧
    bm25_search gsC3 docsC3 ("apple") 2 =
      (((List.insertionSort (descLex (gsC3 (pyLowerSplit ("apple"))))
          (List.range (gsC3 (pyLowerSplit ("apple"))).length)).take 2).filter
        (fun i => 0 < (gsC3 (pyLowerSplit ("apple"))).getD i 0)).map
        (fun i => (docsC3.getD i default, (gsC3 (pyLowerSplit ("apple"))).getD i 0)) :=
  ⟨by decide, c3_amended gsC3 docsC3 ("apple") 2 (by decide)⟩

/-- Corpus for the C7 counterexample: only the first document mentions the
query term, so only it gets a positive BM25 score (realisable: with
`"apple"` in 1 of 3 documents the Okapi idf is `ln(2.5/1.5) > 0`). -/
def docsC7 : List Doc :=
  [⟨1, "book_chunk", "Chunk 1", "apple pie", "s"⟩,
   ⟨2, "book_chunk", "Chunk 2", "banana", "s"⟩,
   ⟨3, "book_chunk", "Chunk 3", "cherry", "s"⟩]

/-- Score profile for `docsC7`: positive only at index 0. -/
def gsC7 : List String → List ℚ := fun _ => [1, 0, 0]

/-- C7 COUNTEREXAMPLE.  With `top_k = 5` strictly larger than the corpus
size 3, `bm25_search` returns 1 hit, not `len(corpus) = 3`: the
`scores[idx] > 0` filter drops the two zero-scoring documents, so "exactly
`len(corpus)` hits" is false. -/
theorem c7_counterexample :
    (bm25_search gsC7 docsC7 ("apple") 5).length = 1 ∧ docsC7.length = 3 := by decide

/-- C7, amended.  With `top_k` larger than the corpus size, `bm25_search`
returns exactly the documents with strictly positive score (no error, and
for any `top_k` at all the result is never padded beyond the corpus
size). -/
theorem c7_amended (get_scores : List String → List ℚ) (docs : List Doc)
    (query : String) (top_k : Nat)
    (hlen : (get_scores (pyLowerSplit query)).length = docs.length)
    (hk : docs.length < top_k) :
    (bm25_search get_scores docs query top_k).length =
      ((List.range docs.length).filter
        (fun i => 0 < (get_scores (pyLowerSplit query)).getD i 0)).length ∧
    ∀ k2, (bm25_search get_scores docs query k2).length ≤ docs.length := by
  constructor
  · unfold bm25_search bm25_hits
    rw [topIndices_eq _ _ (by omega), List.length_map]
    have hslen : (List.insertionSort (descLex (get_scores (pyLowerSplit query)))
        (List.range (get_scores (pyLowerSplit query)).length)).length =
        (get_scores (pyLowerSplit query)).length := by
      rw [(List.perm_insertionSort _ _).length_eq, List.length_range]
    rw [List.take_of_length_le (by rw [hslen]; omega)]
    have hperm := (List.perm_insertionSort (descLex (get_scores (pyLowerSplit query)))
        (List.range (get_scores (pyLowerSplit query)).length)).filter
        (fun i => decide (0 < (get_scores (pyLowerSplit query)).getD i 0))
    rw [hperm.length_eq, hlen]
  · intro k2
    unfold bm25_search bm25_hits
    rw [List.length_map]
    have h1 : (List.filter (fun i => decide (0 < (get_scores (pyLowerSplit query)).getD i 0))
        (topIndices (get_scores (pyLowerSplit query)) k2)).length ≤
        (topIndices (get_scores (pyLowerSplit query)) k2).length :=
      List.length_filter_le _ _
    have hal : (argsortAsc (get_scores (pyLowerSplit query))).length =
        (get_scores (pyLowerSplit query)).length := by
      unfold argsortAsc
      rw [(List.perm_insertionSort _ _).length_eq, List.length_range]
    have h2 : (topIndices (get_scores (pyLowerSplit query)) k2).length ≤ docs.length := by
      unfold topIndices pyNegSlice
      rw [List.length_reverse]
      by_cases h0 : k2 = 0
      · rw [if_pos h0, hal, hlen]
      · rw [if_neg h0, List.length_drop, hal, hlen]
        omega
    omega

/-- Witness for `c7_amended` on `docsC7` with `top_k = 5`. -/
theorem c7_witness :
    (gsC7 (pyLowerSplit ("apple"))).length = docsC7.length ∧ docsC7.length < 5 ∧
    ((bm25_search gsC7 docsC7 ("apple") 5).length =
      ((List.range docsC7.length).filter
        (fun i => 0 < (gsC7 (pyLowerSplit ("apple"))).getD i 0)).length ∧
     ∀ k2, (bm25_search gsC7 docsC7 ("apple") k2).length ≤ docsC7.length) :=
  ⟨by decide, by decide, c7_amended gsC7 docsC7 ("apple") 5 (by decide) (by decide)⟩

/-! ## Hybrid fusion (`MedicalRAGSystem.hybrid_search`)

```python
bm25_scores = {doc['id']: doc['score'] for doc in bm25_results}
max_bm25 = max(bm25_scores.values()) if bm25_scores else 1
vector_scores = {doc['id']: 1 / (1 + doc['distance']) for doc in vector_results}
max_vector = max(vector_scores.values()) if vector_scores else 1
hybrid_scores = {}
all_doc_ids = set(bm25_scores.keys()) | set(vector_scores.keys())
for doc_id in all_doc_ids:
    norm_bm25 = (bm25_scores.get(doc_id, 0) / max_bm25) if max_bm25 > 0 else 0
    norm_vector = (vector_scores.get(doc_id, 0) / max_vector) if max_vector > 0 else 0
    hybrid_scores[doc_id] = (bm25_weight * norm_bm25 + vector_weight * norm_vector)
sorted_ids = sorted(hybrid_scores.items(), key=lambda x: x[1], reverse=True)[:top_k]
```

Python dicts keep keys in first-insertion order and take the last value
written; `sorted` is stable.  The iteration order of the `set` union is
unspecified in Python, so the model fixes one concrete order (lexical keys
first, then new vector keys); no theorem below depends on that choice. -/

/-- One Python `dict[key] = value` assignment on an association list:
overwrite in place if the key exists, else append. -/
def dictInsert (m : List (Nat × ℚ)) (k : Nat) (v : ℚ) : List (Nat × ℚ) :=
  if m.any (fun p => p.1 == k) then
    m.map (fun p => if p.1 == k then (k, v) else p)
  else m ++ [(k, v)]

/-- A Python dict comprehension over the pairs of `l`. -/
def pyDict (l : List (Nat × ℚ)) : List (Nat × ℚ) :=
  l.foldl (fun m p => dictInsert m p.1 p.2) []

/-- Python `d.get(k, dflt)`. -/
def dictGetD (m : List (Nat × ℚ)) (k : Nat) (dflt : ℚ) : ℚ :=
  ((m.find? (fun p => p.1 == k)).map (fun p => p.2)).getD dflt

/-- Python `max(d.values()) if d else 1` — the zero-guard default. -/
def pyMaxD1 (l : List ℚ) : ℚ :=
  l.maximum.unbot' 1

/-- The normalisation computed inside the fusion loop, exactly as coded:
`(d.get(id, 0) / mx) if mx > 0 else 0`. -/
def codeNorm (m : List (Nat × ℚ)) (id : Nat) : ℚ :=
  if 0 < pyMaxD1 (m.map (fun p => p.2)) then
    dictGetD m id 0 / pyMaxD1 (m.map (fun p => p.2))
  else 0

/-- First-occurrence key dedup (accumulator = keys already seen). -/
def firstKeysAux : List Nat → List Nat → List Nat
  | [], _ => []
  | k :: ks, seen =>
      if seen.contains k then firstKeysAux ks seen else k :: firstKeysAux ks (k :: seen)

/-- The id set union `set(bm.keys()) | set(vec.keys())` in the model's
fixed iteration order. -/
def fuse_ids (bmDict vecDict : List (Nat × ℚ)) : List Nat :=
  firstKeysAux (bmDict.map (fun p => p.1) ++ vecDict.map (fun p => p.1)) []

/-- The dict `(doc id -> score)` built from `bm25_results`. -/
def bmDictOf (bm25_results : List (Doc × ℚ)) : List (Nat × ℚ) :=
  pyDict (bm25_results.map (fun h => (h.1.id, h.2)))

/-- The dict `(doc id -> 1 / (1 + distance))` built from `vector_results`. -/
def vecDictOf (vector_results : List (Doc × ℚ)) : List (Nat × ℚ) :=
  pyDict (vector_results.map (fun h => (h.1.id, 1 / (1 + h.2))))

/-- The `hybrid_scores` dict as an ordered list of pairs. -/
def fusedPairs (bm25_results vector_results : List (Doc × ℚ)) (w1 w2 : ℚ) :
    List (Nat × ℚ) :=
  (fuse_ids (bmDictOf bm25_results) (vecDictOf vector_results)).map
    (fun id => (id, w1 * codeNorm (bmDictOf bm25_results) id
                  + w2 * codeNorm (vecDictOf vector_results) id))

/-- Relation for the stable `sorted(..., key=lambda x: x[1], reverse=True)`. -/
def byScoreDesc (a b : Nat × ℚ) : Prop := b.2 ≤ a.2

instance byScoreDescDec : DecidableRel byScoreDesc := fun a b => by
  unfold byScoreDesc
  exact inferInstance

instance byScoreDescTotal : IsTotal (Nat × ℚ) byScoreDesc :=
  ⟨fun a b => (le_total b.2 a.2).imp (fun h => h) (fun h => h)⟩

instance byScoreDescTrans : IsTrans (Nat × ℚ) byScoreDesc :=
  ⟨fun _ _ _ hab hbc => le_trans hbc hab⟩

/-- The fusion-and-resolution tail of `hybrid_search`, as a function of the
two hit lists it merges. -/
def hybrid_fuse (documents : List Doc) (bm25_results vector_results : List (Doc × ℚ))
    (w1 w2 : ℚ) (top_k : Nat) : List (Doc × ℚ) :=
  ((List.insertionSort byScoreDesc (fusedPairs bm25_results vector_results w1 w2)).take
      top_k).filterMap
    (fun p => (documents.find? (fun d => d.id == p.1)).map (fun d => (d, p.2)))

/-- The fused-score formula exactly as the specification words it: each
side is the (dict) score divided by the maximum present, an absent maximum
is taken to be 1, and a missing id contributes 0.  Stated from the spec for
comparison against the code's guarded arithmetic. -/
def spec_fused_score (bmDict vecDict : List (Nat × ℚ)) (w1 w2 : ℚ) (id : Nat) : ℚ :=
  w1 * (dictGetD bmDict id 0 / pyMaxD1 (bmDict.map (fun p => p.2))) +
  w2 * (dictGetD vecDict id 0 / pyMaxD1 (vecDict.map (fun p => p.2)))

/-- Model of `MedicalRAGSystem.vector_search`, given the response of the ChromaDB
backend (`self.collection.query`, external to this repository) as an
`Except`: an exception anywhere in the `try` block yields `error` and the
code returns `[]`; otherwise each returned string id is resolved against
`self.documents` by `str(d['id']) == doc_id` (first match, misses
skipped) and paired with its distance. -/
def vector_search (documents : List Doc) (resp : Except String (List (String × ℚ))) :
    List (Doc × ℚ) :=
  match resp with
  | Except.error _ => []
  | Except.ok hits =>
      hits.filterMap (fun h =>
        (documents.find? (fun d => toString d.id == h.1)).map (fun d => (d, h.2)))

/-- Model of `MedicalRAGSystem.hybrid_search`: run both retrievers with `top_k*2`,
then fuse.  `backend query n` is the vector store's response to
`collection.query(query_texts=[query], n_results=n)`. -/
def hybrid_search (get_scores : List String → List ℚ) (documents : List Doc)
    (backend : String → Nat → Except String (List (String × ℚ)))
    (query : String) (top_k : Nat) (w1 w2 : ℚ) : List (Doc × ℚ) :=
  hybrid_fuse documents
    (bm25_search get_scores documents query (top_k * 2))
    (vector_search documents (backend query (top_k * 2)))
    w1 w2 top_k

theorem dictInsert_forall {P : Nat × ℚ → Prop} {m : List (Nat × ℚ)} {k : Nat} {v : ℚ}
    (hm : ∀ q ∈ m, P q) (hkv : P (k, v)) : ∀ q ∈ dictInsert m k v, P q := by
  intro q hq
  unfold dictInsert at hq
  by_cases hany : (m.any (fun p => p.1 == k)) = true
  · rw [if_pos hany] at hq
    obtain ⟨p, hp, hpq⟩ := List.mem_map.mp hq
    by_cases hpk : (p.1 == k) = true
    · rw [if_pos hpk] at hpq
      exact hpq ▸ hkv
    · rw [if_neg hpk] at hpq
      exact hpq ▸ hm p hp
  · rw [if_neg hany] at hq
    rcases List.mem_append.mp hq with h | h
    · exact hm q h
    · have := List.mem_singleton.mp h
      exact this ▸ hkv

theorem pyDictAux_forall {P : Nat × ℚ → Prop} :
    ∀ (l m : List (Nat × ℚ)), (∀ q ∈ m, P q) → (∀ p ∈ l, P p) →
      ∀ q ∈ l.foldl (fun m2 p => dictInsert m2 p.1 p.2) m, P q
  | [], _, hm, _ => hm
  | p :: l, m, hm, hl => by
      simp only [List.foldl_cons]
      exact pyDictAux_forall l (dictInsert m p.1 p.2)
        (dictInsert_forall hm (hl p (List.mem_cons_self _ _)))
        (fun x hx => hl x (List.mem_cons_of_mem _ hx))

theorem pyDict_forall {P : Nat × ℚ → Prop} (l : List (Nat × ℚ)) (hl : ∀ p ∈ l, P p) :
    ∀ q ∈ pyDict l, P q :=
  pyDictAux_forall l [] (fun q hq => absurd hq (List.not_mem_nil q)) hl

theorem pyMaxD1_pos {l : List ℚ} (h : ∀ v ∈ l, 0 < v) : 0 < pyMaxD1 l := by
  unfold pyMaxD1
  rcases hm : l.maximum with _ | m
  · exact one_pos
  · have hmem : m ∈ l := List.maximum_mem hm
    simpa [WithBot.unbot'] using h m hmem

theorem codeNorm_pos_eq {m : List (Nat × ℚ)} (h : ∀ q ∈ m, 0 < q.2) (id : Nat) :
    codeNorm m id = dictGetD m id 0 / pyMaxD1 (m.map (fun p => p.2)) := by
  unfold codeNorm
  rw [if_pos]
  apply pyMaxD1_pos
  intro v hv
  obtain ⟨q, hq, rfl⟩ := List.mem_map.mp hv
  exact h q hq

theorem bmDictOf_pos {bm : List (Doc × ℚ)} (hbm : ∀ h ∈ bm, 0 < h.2) :
    ∀ q ∈ bmDictOf bm, 0 < q.2 := by
  unfold bmDictOf
  apply pyDict_forall
  intro p hp
  obtain ⟨h, hh, rfl⟩ := List.mem_map.mp hp
  exact hbm h hh

theorem vecDictOf_pos {vec : List (Doc × ℚ)} (hvec : ∀ h ∈ vec, 0 ≤ h.2) :
    ∀ q ∈ vecDictOf vec, 0 < q.2 := by
  unfold vecDictOf
  apply pyDict_forall
  intro p hp
  obtain ⟨h, hh, rfl⟩ := List.mem_map.mp hp
  have := hvec h hh
  exact div_pos one_pos (by linarith)

/-- Under the invariants the two retrievers guarantee (lexical scores
strictly positive, distances nonnegative) the guarded arithmetic of the
fusion loop coincides with the specification's fused-score formula. -/
theorem fused_eq_spec {bm vec : List (Doc × ℚ)} {w1 w2 : ℚ} {id : Nat}
    (hbm : ∀ h ∈ bm, 0 < h.2) (hvec : ∀ h ∈ vec, 0 ≤ h.2) :
    w1 * codeNorm (bmDictOf bm) id + w2 * codeNorm (vecDictOf vec) id =
      spec_fused_score (bmDictOf bm) (vecDictOf vec) w1 w2 id := by
  unfold spec_fused_score
  rw [codeNorm_pos_eq (bmDictOf_pos hbm), codeNorm_pos_eq (vecDictOf_pos hvec)]

theorem filterMap_resolve_eq_map {documents : List Doc} :
    ∀ {s : List (Nat × ℚ)},
      (∀ p ∈ s, ∃ d ∈ documents, d.id = p.1) →
      s.filterMap (fun p =>
          (documents.find? (fun d => d.id == p.1)).map (fun d => (d, p.2))) =
        s.map (fun p => ((documents.find? (fun d => d.id == p.1)).getD default, p.2))
  | [], _ => rfl
  | q :: s, h => by
      obtain ⟨d, hd, hid⟩ := h q (List.mem_cons_self _ _)
      have hsome : (documents.find? (fun d2 => d2.id == q.1)).isSome := by
        rw [List.find?_isSome]
        exact ⟨d, hd, by simp [hid]⟩
      obtain ⟨d0, hd0⟩ := Option.isSome_iff_exists.mp hsome
      simp only [List.filterMap_cons, List.map_cons, hd0, Option.map_some', Option.getD_some]
      exact congrArg (List.cons (d0, q.2))
        (filterMap_resolve_eq_map (fun p hp => h p (List.mem_cons_of_mem _ hp)))

/-- C1.  For any lexical hit list (strictly positive scores, as
`bm25_search` guarantees) and vector hit list (nonnegative distances) whose
ids all resolve in the document table, the fusion stage of `hybrid_search`
computes for every id of the union of the two hit sets the fused score
`bm25_weight * (lex/max_lex) + vector_weight * ((1/(1+dist))/max_sim)`
(missing side contributing 0, absent maximum treated as 1), sorts
descending by fused score, truncates to `top_k`, and resolves each
surviving id back to its document: every returned hit carries exactly the
formula's score and its resolved document, the result is sorted descending,
has length `min top_k |union|`, and no omitted union id out-scores any
returned hit. -/
theorem c1_hybrid_fusion (documents : List Doc)
    (bm25_results vector_results : List (Doc × ℚ)) (w1 w2 : ℚ) (top_k : Nat)
    (hbm : ∀ h ∈ bm25_results, 0 < h.2)
    (hvec : ∀ h ∈ vector_results, 0 ≤ h.2)
    (hres : ∀ id ∈ fuse_ids (bmDictOf bm25_results) (vecDictOf vector_results),
      ∃ d ∈ documents, d.id = id) :
    (∀ p ∈ hybrid_fuse documents bm25_results vector_results w1 w2 top_k,
        p.2 = spec_fused_score (bmDictOf bm25_results) (vecDictOf vector_results)
                w1 w2 p.1.id ∧
        documents.find? (fun d => d.id == p.1.id) = some p.1) ∧
    List.Pairwise (fun (a b : Doc × ℚ) => b.2 ≤ a.2)
      (hybrid_fuse documents bm25_results vector_results w1 w2 top_k) ∧
    (hybrid_fuse documents bm25_results vector_results w1 w2 top_k).length =
      min top_k (fuse_ids (bmDictOf bm25_results) (vecDictOf vector_results)).length ∧
    (∀ id ∈ fuse_ids (bmDictOf bm25_results) (vecDictOf vector_results),
      id ∉ (hybrid_fuse documents bm25_results vector_results w1 w2 top_k).map
          (fun p => p.1.id) →
      ∀ p ∈ hybrid_fuse documents bm25_results vector_results w1 w2 top_k,
        spec_fused_score (bmDictOf bm25_results) (vecDictOf vector_results)
          w1 w2 id ≤ p.2) := by
  have hresT : ∀ p ∈ (List.insertionSort byScoreDesc
      (fusedPairs bm25_results vector_results w1 w2)).take top_k,
      ∃ d ∈ documents, d.id = p.1 := by
    intro p hp
    have hmem : p ∈ fusedPairs bm25_results vector_results w1 w2 :=
      (List.perm_insertionSort byScoreDesc _).mem_iff.mp ((List.take_sublist _ _).subset hp)
    obtain ⟨id, hid, hfe⟩ := List.mem_map.mp hmem
    rw [← hfe]
    exact hres id hid
  have hR : hybrid_fuse documents bm25_results vector_results w1 w2 top_k =
      ((List.insertionSort byScoreDesc
        (fusedPairs bm25_results vector_results w1 w2)).take top_k).map
        (fun p => ((documents.find? (fun d => d.id == p.1)).getD default, p.2)) := by
    unfold hybrid_fuse
    exact filterMap_resolve_eq_map hresT
  refine ⟨?_, ?_, ?_, ?_⟩
  · -- score formula and document resolution
    intro p hp
    rw [hR] at hp
    obtain ⟨q, hq, hgq⟩ := List.mem_map.mp hp
    obtain ⟨d, hd, hid⟩ := hresT q hq
    have hsome : (documents.find? (fun d2 => d2.id == q.1)).isSome := by
      rw [List.find?_isSome]
      exact ⟨d, hd, by simp [hid]⟩
    obtain ⟨d0, hd0⟩ := Option.isSome_iff_exists.mp hsome
    have hd0id : d0.id = q.1 := by simpa using List.find?_some hd0
    have hmemF : q ∈ fusedPairs bm25_results vector_results w1 w2 :=
      (List.perm_insertionSort byScoreDesc _).mem_iff.mp ((List.take_sublist _ _).subset hq)
    obtain ⟨id, hidm, hfe⟩ := List.mem_map.mp hmemF
    rw [← hgq]
    simp only [hd0, Option.getD_some]
    constructor
    · show q.2 = spec_fused_score _ _ w1 w2 d0.id
      rw [hd0id, ← hfe]
      exact fused_eq_spec hbm hvec
    · show documents.find? (fun d2 => d2.id == d0.id) = some d0
      rw [hd0id]
      exact hd0
  · -- sorted descending
    rw [hR, List.pairwise_map]
    exact List.Pairwise.sublist (List.take_sublist _ _)
      (List.sorted_insertionSort byScoreDesc _)
  · -- length
    rw [hR, List.length_map, List.length_take,
      (List.perm_insertionSort byScoreDesc _).length_eq]
    unfold fusedPairs
    rw [List.length_map]
  · -- no omitted union id out-scores a returned hit
    intro id hid hnot p hp
    have hmemF : (id, w1 * codeNorm (bmDictOf bm25_results) id
        + w2 * codeNorm (vecDictOf vector_results) id) ∈
        fusedPairs bm25_results vector_results w1 w2 :=
      List.mem_map.mpr ⟨id, hid, rfl⟩
    have hmemS : (id, w1 * codeNorm (bmDictOf bm25_results) id
        + w2 * codeNorm (vecDictOf vector_results) id) ∈
        List.insertionSort byScoreDesc (fusedPairs bm25_results vector_results w1 w2) :=
      (List.perm_insertionSort byScoreDesc _).mem_iff.mpr hmemF
    have hsplit := List.take_append_drop top_k
      (List.insertionSort byScoreDesc (fusedPairs bm25_results vector_results w1 w2))
    rcases List.mem_append.mp (hsplit ▸ hmemS) with hT | hD
    · exfalso
      apply hnot
      have hsome : (documents.find? (fun d2 => d2.id == id)).isSome := by
        rw [List.find?_isSome]
        obtain ⟨d, hd, hdid⟩ := hres id hid
        exact ⟨d, hd, by simp [hdid]⟩
      obtain ⟨d0, hd0⟩ := Option.isSome_iff_exists.mp hsome
      have hd0id : d0.id = id := by simpa using List.find?_some hd0
      rw [hR, List.map_map]
      apply List.mem_map.mpr
      refine ⟨(id, w1 * codeNorm (bmDictOf bm25_results) id
        + w2 * codeNorm (vecDictOf vector_results) id), hT, ?_⟩
      simp [hd0, hd0id]
    · have hsorted2 : List.Pairwise byScoreDesc
          ((List.insertionSort byScoreDesc
            (fusedPairs bm25_results vector_results w1 w2)).take top_k ++
           (List.insertionSort byScoreDesc
            (fusedPairs bm25_results vector_results w1 w2)).drop top_k) := by
        rw [hsplit]
        exact List.sorted_insertionSort byScoreDesc _
      have hrel := (List.pairwise_append.mp hsorted2).2.2
      rw [hR] at hp
      obtain ⟨q, hqT, hgq⟩ := List.mem_map.mp hp
      have hle := hrel q hqT _ hD
      rw [← hgq]
      calc spec_fused_score (bmDictOf bm25_results) (vecDictOf vector_results) w1 w2 id
          = w1 * codeNorm (bmDictOf bm25_results) id
            + w2 * codeNorm (vecDictOf vector_results) id :=
            (fused_eq_spec hbm hvec).symm
        _ ≤ q.2 := hle

/-- Two-document corpus for the C1/C5 witnesses. -/
def docsC1 : List Doc :=
  [⟨1, "book_chunk", "Chunk 1", "apple", "s"⟩,
   ⟨2, "book_chunk", "Chunk 2", "pear", "s"⟩]

/-- A lexical hit list over `docsC1` (one positive-score hit). -/
def bmC1 : List (Doc × ℚ) := [(⟨1, "book_chunk", "Chunk 1", "apple", "s"⟩, 2)]

/-- A vector hit list over `docsC1` (one hit at distance 1). -/
def vecC1 : List (Doc × ℚ) := [(⟨2, "book_chunk", "Chunk 2", "pear", "s"⟩, 1)]

/-- Witness for `c1_hybrid_fusion` with weights 3/5 and 2/5 and `top_k = 2`. -/
theorem c1_witness :
    (∀ h ∈ bmC1, 0 < h.2) ∧ (∀ h ∈ vecC1, 0 ≤ h.2) ∧
    (∀ id ∈ fuse_ids (bmDictOf bmC1) (vecDictOf vecC1), ∃ d ∈ docsC1, d.id = id) ∧
    ((∀ p ∈ hybrid_fuse docsC1 bmC1 vecC1 (3/5) (2/5) 2,
        p.2 = spec_fused_score (bmDictOf bmC1) (vecDictOf vecC1) (3/5) (2/5) p.1.id ∧
        docsC1.find? (fun d => d.id == p.1.id) = some p.1) ∧
     List.Pairwise (fun (a b : Doc × ℚ) => b.2 ≤ a.2)
       (hybrid_fuse docsC1 bmC1 vecC1 (3/5) (2/5) 2) ∧
     (hybrid_fuse docsC1 bmC1 vecC1 (3/5) (2/5) 2).length =
       min 2 (fuse_ids (bmDictOf bmC1) (vecDictOf vecC1)).length ∧
     (∀ id ∈ fuse_ids (bmDictOf bmC1) (vecDictOf vecC1),
       id ∉ (hybrid_fuse docsC1 bmC1 vecC1 (3/5) (2/5) 2).map (fun p => p.1.id) →
       ∀ p ∈ hybrid_fuse docsC1 bmC1 vecC1 (3/5) (2/5) 2,
         spec_fused_score (bmDictOf bmC1) (vecDictOf vecC1) (3/5) (2/5) id ≤ p.2)) :=
  ⟨by decide, by decide, by decide,
   c1_hybrid_fusion docsC1 bmC1 vecC1 (3/5) (2/5) 2 (by decide) (by decide) (by decide)⟩

theorem bm25_search_pos (get_scores : List String → List ℚ) (docs : List Doc)
    (query : String) (top_k : Nat) :
    ∀ p ∈ bm25_search get_scores docs query top_k, 0 < p.2 := by
  intro p hp
  unfold bm25_search bm25_hits at hp
  obtain ⟨i, hi, hpe⟩ := List.mem_map.mp hp
  rw [← hpe]
  have := List.mem_filter.mp hi
  simpa using this.2

theorem topIndices_lt (scores : List ℚ) (top_k : Nat) :
    ∀ i ∈ topIndices scores top_k, i < scores.length := by
  intro i hi
  unfold topIndices pyNegSlice at hi
  have hi1 := List.mem_reverse.mp hi
  have hi2 : i ∈ argsortAsc scores := by
    by_cases h0 : top_k = 0
    · rw [if_pos h0] at hi1
      exact hi1
    · rw [if_neg h0] at hi1
      exact (List.drop_sublist _ _).subset hi1
  have hi3 : i ∈ List.range scores.length :=
    (List.perm_insertionSort (ascLex scores) _).mem_iff.mp hi2
  exact List.mem_range.mp hi3

theorem bm25_search_doc_mem (get_scores : List String → List ℚ) (docs : List Doc)
    (query : String) (top_k : Nat)
    (hlen : (get_scores (pyLowerSplit query)).length = docs.length) :
    ∀ p ∈ bm25_search get_scores docs query top_k, p.1 ∈ docs := by
  intro p hp
  unfold bm25_search bm25_hits at hp
  obtain ⟨i, hi, hpe⟩ := List.mem_map.mp hp
  have hilt : i < docs.length := by
    rw [← hlen]
    exact topIndices_lt _ _ i (List.mem_filter.mp hi).1
  rw [← hpe]
  show docs.getD i default ∈ docs
  rw [List.getD_eq_getElem docs default hilt]
  exact List.getElem_mem _

theorem firstKeysAux_subset : ∀ (l seen : List Nat), ∀ x ∈ firstKeysAux l seen, x ∈ l
  | [], _, x, hx => absurd hx (List.not_mem_nil x)
  | k :: ks, seen, x, hx => by
      unfold firstKeysAux at hx
      by_cases h : (seen.contains k) = true
      · rw [if_pos h] at hx
        exact List.mem_cons_of_mem _ (firstKeysAux_subset ks seen x hx)
      · rw [if_neg h] at hx
        rcases List.mem_cons.mp hx with rfl | hx2
        · exact List.mem_cons_self _ _
        · exact List.mem_cons_of_mem _ (firstKeysAux_subset ks (k :: seen) x hx2)

theorem fuse_ids_nil_subset (bm : List (Doc × ℚ)) :
    ∀ id ∈ fuse_ids (bmDictOf bm) (vecDictOf []), id ∈ bm.map (fun h => h.1.id) := by
  intro id hid
  unfold fuse_ids at hid
  have h1 : id ∈ (bmDictOf bm).map (fun p => p.1) ++
      (vecDictOf []).map (fun p => p.1) := firstKeysAux_subset _ _ id hid
  have h2 : (vecDictOf ([] : List (Doc × ℚ))) = [] := rfl
  rw [h2] at h1
  simp only [List.map_nil, List.append_nil] at h1
  obtain ⟨q, hq, hqe⟩ := List.mem_map.mp h1
  have h3 : q.1 ∈ (bm.map (fun h => (h.1.id, h.2))).map (fun p => p.1) :=
    pyDict_forall _ (fun p hp => List.mem_map.mpr ⟨p, hp, rfl⟩) q hq
  rw [List.map_map] at h3
  rw [← hqe]
  simpa using h3

theorem codeNorm_nil (id : Nat) : codeNorm [] id = 0 := by
  unfold codeNorm dictGetD pyMaxD1
  norm_num

theorem dictInsert_ne_nil (m : List (Nat × ℚ)) (k : Nat) (v : ℚ) :
    dictInsert m k v ≠ [] := by
  unfold dictInsert
  by_cases hany : (m.any (fun p => p.1 == k)) = true
  · rw [if_pos hany]
    intro hcontra
    have hm : m ≠ [] := by
      intro hm0
      rw [hm0] at hany
      simp at hany
    exact hm (List.map_eq_nil_iff.mp hcontra)
  · rw [if_neg hany]
    simp

theorem pyDictAux_ne_nil :
    ∀ (l m : List (Nat × ℚ)), m ≠ [] →
      l.foldl (fun m2 p => dictInsert m2 p.1 p.2) m ≠ []
  | [], _, hm => hm
  | p :: l, m, _ => by
      simp only [List.foldl_cons]
      exact pyDictAux_ne_nil l (dictInsert m p.1 p.2) (dictInsert_ne_nil m p.1 p.2)

theorem pyDict_ne_nil {l : List (Nat × ℚ)} (h : l ≠ []) : pyDict l ≠ [] := by
  obtain ⟨p, l2, rfl⟩ := List.exists_cons_of_ne_nil h
  unfold pyDict
  simp only [List.foldl_cons]
  exact pyDictAux_ne_nil l2 _ (dictInsert_ne_nil [] p.1 p.2)

theorem firstKeysAux_ne_nil (k : Nat) (ks : List Nat) :
    firstKeysAux (k :: ks) [] ≠ [] := by
  unfold firstKeysAux
  simp

/-- C5.  If every call into the vector backend raises, `vector_search`
catches the fault and returns `[]` instead of propagating it, and
`hybrid_search` (a total function in this model — the only backend call it
makes is inside `vector_search`'s handler) degrades to fusing the lexical
hits with an empty vector list: every returned hit is one of the BM25
hits' documents scored purely by the weighted normalised lexical signal
(the vector side contributes 0), and with a positive `top_k` and a
nonempty lexical hit list the result is still nonempty. -/
theorem c5_degraded_mode (get_scores : List String → List ℚ) (documents : List Doc)
    (backend : String → Nat → Except String (List (String × ℚ)))
    (query : String) (top_k : Nat) (w1 w2 : ℚ)
    (hfail : ∀ q n, ∃ e, backend q n = Except.error e)
    (hlen : (get_scores (pyLowerSplit query)).length = documents.length) :
    vector_search documents (backend query top_k) = [] ∧
    hybrid_search get_scores documents backend query top_k w1 w2 =
      hybrid_fuse documents (bm25_search get_scores documents query (top_k * 2))
        [] w1 w2 top_k ∧
    (∀ p ∈ hybrid_search get_scores documents backend query top_k w1 w2,
        p.1.id ∈ (bm25_search get_scores documents query (top_k * 2)).map
          (fun h => h.1.id) ∧
        p.2 = w1 * codeNorm
          (bmDictOf (bm25_search get_scores documents query (top_k * 2))) p.1.id) ∧
    (1 ≤ top_k → bm25_search get_scores documents query (top_k * 2) ≠ [] →
      hybrid_search get_scores documents backend query top_k w1 w2 ≠ []) := by
  have hv : ∀ n, vector_search documents (backend query n) = [] := by
    intro n
    obtain ⟨e, he⟩ := hfail query n
    rw [he]
    rfl
  have hh : hybrid_search get_scores documents backend query top_k w1 w2 =
      hybrid_fuse documents (bm25_search get_scores documents query (top_k * 2))
        [] w1 w2 top_k := by
    unfold hybrid_search
    rw [hv (top_k * 2)]
  refine ⟨hv top_k, hh, ?_, ?_⟩
  · intro p hp
    rw [hh] at hp
    unfold hybrid_fuse at hp
    obtain ⟨q, hq, hfq⟩ := List.mem_filterMap.mp hp
    obtain ⟨d0, hd0, hde⟩ := Option.map_eq_some'.mp hfq
    have hd0id : d0.id = q.1 := by simpa using List.find?_some hd0
    have hmemF : q ∈ fusedPairs (bm25_search get_scores documents query (top_k * 2))
        [] w1 w2 :=
      (List.perm_insertionSort byScoreDesc _).mem_iff.mp ((List.take_sublist _ _).subset hq)
    obtain ⟨id, hid, hfe⟩ := List.mem_map.mp hmemF
    have hq1 : q.1 = id := by rw [← hfe]
    constructor
    · rw [← hde]
      show d0.id ∈ _
      rw [hd0id, hq1]
      exact fuse_ids_nil_subset _ id hid
    · rw [← hde]
      show q.2 = w1 * codeNorm _ d0.id
      have hq2 : q.2 = w1 * codeNorm
          (bmDictOf (bm25_search get_scores documents query (top_k * 2))) id
          + w2 * codeNorm (vecDictOf []) id := by
        rw [← hfe]
      have hvnil : vecDictOf ([] : List (Doc × ℚ)) = [] := rfl
      rw [hd0id, hq1, hq2, hvnil, codeNorm_nil, mul_zero, add_zero]
  · intro hk hne
    rw [hh]
    unfold hybrid_fuse
    have hresT : ∀ q ∈ (List.insertionSort byScoreDesc
        (fusedPairs (bm25_search get_scores documents query (top_k * 2))
          [] w1 w2)).take top_k,
        ∃ d ∈ documents, d.id = q.1 := by
      intro q hq
      have hmemF : q ∈ fusedPairs (bm25_search get_scores documents query (top_k * 2))
          [] w1 w2 :=
        (List.perm_insertionSort byScoreDesc _).mem_iff.mp
          ((List.take_sublist _ _).subset hq)
      obtain ⟨id, hid, hfe⟩ := List.mem_map.mp hmemF
      obtain ⟨h0, hh0, hh0e⟩ := List.mem_map.mp (fuse_ids_nil_subset _ id hid)
      refine ⟨h0.1, bm25_search_doc_mem _ _ _ _ hlen h0 hh0, ?_⟩
      rw [← hfe]
      exact hh0e
    rw [filterMap_resolve_eq_map hresT]
    intro hcontra
    rw [List.map_eq_nil_iff, List.take_eq_nil_iff] at hcontra
    rcases hcontra with h0 | h0
    · omega
    · have hFP : fusedPairs (bm25_search get_scores documents query (top_k * 2))
          [] w1 w2 = [] := by
        have hperm := List.perm_insertionSort byScoreDesc
          (fusedPairs (bm25_search get_scores documents query (top_k * 2)) [] w1 w2)
        rw [h0] at hperm
        exact List.perm_nil.mp hperm.symm
      unfold fusedPairs at hFP
      rw [List.map_eq_nil_iff] at hFP
      have hbmne : bmDictOf (bm25_search get_scores documents query (top_k * 2)) ≠ [] := by
        unfold bmDictOf
        apply pyDict_ne_nil
        intro hmap
        exact hne (List.map_eq_nil_iff.mp hmap)
      unfold fuse_ids at hFP
      obtain ⟨q, qs, hqe⟩ := List.exists_cons_of_ne_nil hbmne
      rw [hqe] at hFP
      have hvnil : vecDictOf ([] : List (Doc × ℚ)) = [] := rfl
      rw [hvnil] at hFP
      simp only [List.map_cons, List.map_nil, List.append_nil] at hFP
      exact firstKeysAux_ne_nil q.1 _ hFP

/-- A vector backend that raises on every call. -/
def backendC5 : String → Nat → Except String (List (String × ℚ)) :=
  fun _ _ => Except.error ("connection refused")

/-- A scoring function for `docsC1`: positive for the first document only. -/
def gsC5 : List String → List ℚ := fun _ => [1, 0]

/-- Witness for `c5_degraded_mode` on `docsC1` with the failing backend. -/
theorem c5_witness :
    (∀ q n, ∃ e, backendC5 q n = Except.error e) ∧
    ((gsC5 (pyLowerSplit ("apple"))).length = docsC1.length) ∧
    (vector_search docsC1 (backendC5 ("apple") 1) = [] ∧
     hybrid_search gsC5 docsC1 backendC5 ("apple") 1 (3/5) (2/5) =
       hybrid_fuse docsC1 (bm25_search gsC5 docsC1 ("apple") (1 * 2))
         [] (3/5) (2/5) 1 ∧
     (∀ p ∈ hybrid_search gsC5 docsC1 backendC5 ("apple") 1 (3/5) (2/5),
        p.1.id ∈ (bm25_search gsC5 docsC1 ("apple") (1 * 2)).map
          (fun h => h.1.id) ∧
        p.2 = (3/5) * codeNorm
          (bmDictOf (bm25_search gsC5 docsC1 ("apple") (1 * 2))) p.1.id) ∧
     (1 ≤ 1 → bm25_search gsC5 docsC1 ("apple") (1 * 2) ≠ [] →
       hybrid_search gsC5 docsC1 backendC5 ("apple") 1 (3/5) (2/5) ≠ [])) :=
  ⟨fun _ _ => ⟨("connection refused"), rfl⟩, by decide,
   c5_degraded_mode gsC5 docsC1 backendC5 ("apple") 1 (3/5) (2/5)
     (fun _ _ => ⟨("connection refused"), rfl⟩) (by decide)⟩

/-! ## Ingestion and persistence
(`add_documents`, `save_index`, `load_index`)

```python
def add_documents(self, documents):
    self.documents = documents                  # installed FIRST
    try: self.chroma_client.delete_collection("medical_reports")
    except: pass
    self.collection = self.chroma_client.get_or_create_collection(...)
    for i in range(0, len(documents), 100):
        batch = documents[i:i+100]
        ids = [str(doc['id']) for doc in batch]        # KeyError if absent
        texts = [doc['content'] for doc in batch]      # KeyError if absent
        metadatas = [{'title': doc['title'], 'type': doc['type'],
                      'source': doc.get('source', 'unknown')} for doc in batch]
        try: self.collection.add(...)
        except Exception as e: ...warn, continue...
    tokenized_docs = [doc['content'].lower().split() for doc in documents]
    self.bm25 = BM25Okapi(tokenized_docs)
    self.save_index()
```
A `KeyError` raised by a comprehension propagates out of `add_documents`
with `self.documents` already replaced and the old collection deleted. -/

/-- A raw dict-shaped document as passed to `add_documents`; each required
key may be absent (`source` is read with `.get` and is optional). -/
structure RawDoc where
  id : Option Nat := none
  type : Option String := none
  title : Option String := none
  content : Option String := none
  source : Option String := none
  deriving DecidableEq, Repr, Inhabited

/-- One entry of the ChromaDB collection:
(string id, text, title, type, source). -/
structure CollEntry where
  cid : String
  text : String
  title : String
  type : String
  source : String
  deriving DecidableEq, Repr, Inhabited

/-- The state of `MedicalRAGSystem` touched by ingestion and persistence:
in-memory `documents`, the optional BM25 index (represented by the
tokenised corpus it was built from — a pickled `BM25Okapi` is a pure
function of that corpus), the vector collection contents, and the two
pickle files (`none` = file does not exist). -/
structure RAGState where
  documents : List RawDoc
  bm25 : Option (List (List String))
  collection : List CollEntry
  disk_bm25 : Option (Option (List (List String)))
  disk_docs : Option (List RawDoc)
  deriving Repr

/-- The comprehension building the batch id strings — `KeyError` at the first document
missing `id`. -/
def extractIds : List RawDoc → Except String (List String)
  | [] => Except.ok []
  | d :: ds =>
      match d.id with
      | none => Except.error ("KeyError: id")
      | some i => (extractIds ds).map (fun rest => toString i :: rest)

/-- The comprehension reading each batch document's content. -/
def extractTexts : List RawDoc → Except String (List String)
  | [] => Except.ok []
  | d :: ds =>
      match d.content with
      | none => Except.error ("KeyError: content")
      | some t => (extractTexts ds).map (fun rest => t :: rest)

/-- The metadata comprehension: per document, `doc['title']` then
`doc['type']` (`KeyError` at the first missing, in that order), and
`doc.get('source', 'unknown')`. -/
def extractMetas : List RawDoc → Except String (List (String × String × String))
  | [] => Except.ok []
  | d :: ds =>
      match d.title with
      | none => Except.error ("KeyError: title")
      | some t =>
          match d.type with
          | none => Except.error ("KeyError: type")
          | some ty =>
              (extractMetas ds).map
                (fun rest => (t, ty, d.source.getD ("unknown")) :: rest)

/-- The batch windows `documents[i:i+100]` for `i in range(0, len(documents), 100)`. -/
def toBatches (l : List RawDoc) (batch_size : Nat) : List (List RawDoc) :=
  (chunkStarts l.length batch_size).map (fun i => (l.drop i).take batch_size)

/-- The per-batch loop: extract the three comprehensions (first `KeyError`
aborts, returning the entries added so far) and, when the backend `add`
succeeds for a batch (`vecOk`), append its entries to the collection; a
failed `add` is caught and skipped. -/
def addBatches (vecOk : Nat → Bool) :
    Nat → List (List RawDoc) → List CollEntry → Option String × List CollEntry
  | _, [], coll => (none, coll)
  | bi, batch :: rest, coll =>
      match extractIds batch with
      | Except.error e => (some e, coll)
      | Except.ok ids =>
          match extractTexts batch with
          | Except.error e => (some e, coll)
          | Except.ok texts =>
              match extractMetas batch with
              | Except.error e => (some e, coll)
              | Except.ok metas =>
                  addBatches vecOk (bi + 1) rest
                    (if vecOk bi then
                      coll ++ (ids.zip (texts.zip metas)).map
                        (fun z => ⟨z.1, z.2.1, z.2.2.1, z.2.2.2.1, z.2.2.2.2⟩)
                    else coll)

/-- Model of `MedicalRAGSystem.add_documents`.  Returns the raised exception message
(if any) together with the post-call state: `self.documents` is assigned
first and the old collection is cleared before any field validation
happens, so on error the new document list is already installed, the
collection holds only what was re-added before the failure, the BM25 index
is left stale, and nothing is saved to disk. -/
def add_documents (vecOk : Nat → Bool) (s : RAGState) (docs : List RawDoc) :
    Option String × RAGState :=
  match addBatches vecOk 0 (toBatches docs 100) [] with
  | (some e, coll) =>
      (some e, { s with documents := docs, collection := coll })
  | (none, coll) =>
      (none,
        { s with
            documents := docs,
            collection := coll,
            bm25 := some (docs.map (fun d => pyLowerSplit (d.content.getD ("")))),
            disk_bm25 :=
              some (some (docs.map (fun d => pyLowerSplit (d.content.getD (""))))),
            disk_docs := some docs })

/-- Model of `MedicalRAGSystem.save_index`: pickle `self.bm25` and `self.documents`
into the two companion files. -/
def save_index (s : RAGState) : RAGState :=
  { s with disk_bm25 := some s.bm25, disk_docs := some s.documents }

/-- Model of `MedicalRAGSystem.load_index`: if both pickle files exist, load both
and report `true`; otherwise leave the state unchanged and report
`false`. -/
def load_index (s : RAGState) : RAGState × Bool :=
  match s.disk_bm25, s.disk_docs with
  | some b, some d => ({ s with bm25 := b, documents := d }, true)
  | _, _ => (s, false)

/-- A fresh `MedicalRAGSystem` over a storage directory holding pickle
files `db`/`dd` and a vector store `coll`: `__init__` starts with empty
in-memory state and immediately calls `load_index`. -/
def fresh_instance (db : Option (Option (List (List String))))
    (dd : Option (List RawDoc)) (coll : List CollEntry) : RAGState :=
  (load_index
    { documents := [],
      bm25 := none,
      collection := coll,
      disk_bm25 := db,
      disk_docs := dd }).1

/-- Model of `bm25_search` at state level: `if not self.bm25: return []`, else the
pipeline of `bm25_search` over `self.documents`, scoring with the index
state (`get_scores idx` stands for `BM25Okapi(idx).get_scores`, which is
a pure function of the tokenised corpus `idx`). -/
def bm25_search_state (get_scores : List (List String) → List String → List ℚ)
    (s : RAGState) (query : String) (top_k : Nat) : List (RawDoc × ℚ) :=
  match s.bm25 with
  | none => []
  | some idx =>
      ((topIndices (get_scores idx (pyLowerSplit query)) top_k).filter
        (fun i => 0 < (get_scores idx (pyLowerSplit query)).getD i 0)).map
        (fun i => (s.documents.getD i default,
          (get_scores idx (pyLowerSplit query)).getD i 0))

/-- C4.  `save_index()` followed by `load_index()` on a fresh instance over
the same storage directory restores the document list and the BM25 index
state exactly (pickle round-trips values; the vector store persists on its
own), hence an identical document count and identical top-k lexical
results for every fixed query and `top_k`. -/
theorem c4_save_load_roundtrip (s : RAGState) (coll : List CollEntry)
    (get_scores : List (List String) → List String → List ℚ)
    (query : String) (top_k : Nat) :
    (fresh_instance (save_index s).disk_bm25 (save_index s).disk_docs
        coll).documents.length = s.documents.length ∧
    bm25_search_state get_scores
        (fresh_instance (save_index s).disk_bm25 (save_index s).disk_docs coll)
        query top_k =
      bm25_search_state get_scores s query top_k := by
  have h1 : fresh_instance (save_index s).disk_bm25 (save_index s).disk_docs coll =
      { documents := s.documents,
        bm25 := s.bm25,
        collection := coll,
        disk_bm25 := some s.bm25,
        disk_docs := some s.documents } := rfl
  rw [h1]
  constructor
  · rfl
  · unfold bm25_search_state
    rfl

theorem extractIds_error : ∀ {b : List RawDoc} {e : String},
    extractIds b = Except.error e → e = "KeyError: id"
  | [], e, h => by simp [extractIds] at h
  | d :: ds, e, h => by
      unfold extractIds at h
      cases hd : d.id with
      | none =>
          rw [hd] at h
          simp at h
          exact h.symm
      | some i =>
          rw [hd] at h
          cases hrec : extractIds ds with
          | error e2 =>
              rw [hrec] at h
              simp [Except.map] at h
              exact h ▸ extractIds_error hrec
          | ok v =>
              rw [hrec] at h
              simp [Except.map] at h

theorem extractTexts_error : ∀ {b : List RawDoc} {e : String},
    extractTexts b = Except.error e → e = "KeyError: content"
  | [], e, h => by simp [extractTexts] at h
  | d :: ds, e, h => by
      unfold extractTexts at h
      cases hd : d.content with
      | none =>
          rw [hd] at h
          simp at h
          exact h.symm
      | some t =>
          rw [hd] at h
          cases hrec : extractTexts ds with
          | error e2 =>
              rw [hrec] at h
              simp [Except.map] at h
              exact h ▸ extractTexts_error hrec
          | ok v =>
              rw [hrec] at h
              simp [Except.map] at h

theorem extractMetas_error : ∀ {b : List RawDoc} {e : String},
    extractMetas b = Except.error e →
      e = "KeyError: title" ∨ e = "KeyError: type"
  | [], e, h => by simp [extractMetas] at h
  | d :: ds, e, h => by
      unfold extractMetas at h
      cases hd : d.title with
      | none =>
          rw [hd] at h
          simp at h
          exact Or.inl h.symm
      | some t =>
          rw [hd] at h
          cases hd2 : d.type with
          | none =>
              rw [hd2] at h
              simp at h
              exact Or.inr h.symm
          | some ty =>
              rw [hd2] at h
              cases hrec : extractMetas ds with
              | error e2 =>
                  rw [hrec] at h
                  simp [Except.map] at h
                  rcases extractMetas_error hrec with h2 | h2
                  · exact Or.inl (h ▸ h2)
                  · exact Or.inr (h ▸ h2)
              | ok v =>
                  rw [hrec] at h
                  simp [Except.map] at h

theorem addBatches_error : ∀ (vecOk : Nat → Bool) (bi : Nat)
    (batches : List (List RawDoc)) (coll : List CollEntry) (e : String),
    (addBatches vecOk bi batches coll).1 = some e →
    e = "KeyError: id" ∨ e = "KeyError: content" ∨
    e = "KeyError: title" ∨ e = "KeyError: type"
  | _, _, [], _, e, h => by simp [addBatches] at h
  | vecOk, bi, b :: rest, coll, e, h => by
      unfold addBatches at h
      cases hi : extractIds b with
      | error e1 =>
          rw [hi] at h
          simp at h
          exact Or.inl (h ▸ extractIds_error hi)
      | ok ids =>
          rw [hi] at h
          cases ht : extractTexts b with
          | error e1 =>
              rw [ht] at h
              simp at h
              exact Or.inr (Or.inl (h ▸ extractTexts_error ht))
          | ok texts =>
              rw [ht] at h
              cases hm : extractMetas b with
              | error e1 =>
                  rw [hm] at h
                  simp at h
                  rcases extractMetas_error hm with h2 | h2
                  · exact Or.inr (Or.inr (Or.inl (h ▸ h2)))
                  · exact Or.inr (Or.inr (Or.inr (h ▸ h2)))
              | ok metas =>
                  rw [hm] at h
                  exact addBatches_error vecOk (bi + 1) rest _ e h

/-- A well-formed already-ingested document for the C6 scenario. -/
def goodRaw : RawDoc :=
  { id := some 1, type := some ("book_chunk"), title := some ("Chunk 1"),
    content := some ("apple"), source := some ("s") }

/-- A malformed document: required field `content` missing. -/
def badRaw : RawDoc :=
  { id := some 7, type := some ("book_chunk"), title := some ("Chunk 7"),
    content := none, source := some ("s") }

/-- A state holding a previously installed one-document corpus. -/
def s0C6 : RAGState :=
  { documents := [goodRaw],
    bm25 := some [[("apple")]],
    collection := [{ cid := ("1"), text := ("apple"), title := ("Chunk 1"),
                     type := ("book_chunk"), source := ("s") }],
    disk_bm25 := some (some [[("apple")]]),
    disk_docs := some [goodRaw] }

/-- C6 COUNTEREXAMPLE.  Ingesting a batch containing a document with no
`content` raises `KeyError: 'content'` — an error naming the missing FIELD,
not the offending document id (7 appears nowhere in it) — and the failure
is not atomic: `self.documents` has already been replaced by the new batch
(the previous corpus `[goodRaw]` is gone) and the previously installed
vector collection has been deleted; only the stale BM25 index survives. -/
theorem c6_counterexample :
    (add_documents (fun _ => true) s0C6 [badRaw]).1 = some ("KeyError: content") ∧
    (add_documents (fun _ => true) s0C6 [badRaw]).2.documents = [badRaw] ∧
    (add_documents (fun _ => true) s0C6 [badRaw]).2.documents ≠ s0C6.documents ∧
    (add_documents (fun _ => true) s0C6 [badRaw]).2.collection = [] ∧
    (add_documents (fun _ => true) s0C6 [badRaw]).2.bm25 = s0C6.bm25 := by
  refine ⟨rfl, rfl, ?_, rfl, rfl⟩
  decide

/-- C6, amended.  Whenever `add_documents` raises, the error is a
`KeyError` naming one of the four required fields (never the offending
document id), and the failure is not atomic: the new document list is
already installed in memory while the BM25 index and the on-disk snapshot
are left stale from the previous corpus. -/
theorem c6_amended (vecOk : Nat → Bool) (s : RAGState) (docs : List RawDoc)
    (h : (add_documents vecOk s docs).1.isSome = true) :
    (add_documents vecOk s docs).2.documents = docs ∧
    (add_documents vecOk s docs).2.bm25 = s.bm25 ∧
    (add_documents vecOk s docs).2.disk_bm25 = s.disk_bm25 ∧
    (add_documents vecOk s docs).2.disk_docs = s.disk_docs ∧
    ∃ e, (add_documents vecOk s docs).1 = some e ∧
      (e = "KeyError: id" ∨ e = "KeyError: content" ∨
       e = "KeyError: title" ∨ e = "KeyError: type") := by
  rcases haddb : addBatches vecOk 0 (toBatches docs 100) [] with ⟨oe, coll⟩
  unfold add_documents at h ⊢
  rw [haddb] at h ⊢
  cases oe with
  | none => simp at h
  | some e =>
      refine ⟨rfl, rfl, rfl, rfl, e, rfl, ?_⟩
      exact addBatches_error vecOk 0 (toBatches docs 100) [] e (by rw [haddb])

/-- Witness for `c6_amended` at the concrete malformed batch. -/
theorem c6_witness :
    (add_documents (fun _ => true) s0C6 [badRaw]).1.isSome = true ∧
    ((add_documents (fun _ => true) s0C6 [badRaw]).2.documents = [badRaw] ∧
     (add_documents (fun _ => true) s0C6 [badRaw]).2.bm25 = s0C6.bm25 ∧
     (add_documents (fun _ => true) s0C6 [badRaw]).2.disk_bm25 = s0C6.disk_bm25 ∧
     (add_documents (fun _ => true) s0C6 [badRaw]).2.disk_docs = s0C6.disk_docs ∧
     ∃ e, (add_documents (fun _ => true) s0C6 [badRaw]).1 = some e ∧
       (e = "KeyError: id" ∨ e = "KeyError: content" ∨
        e = "KeyError: title" ∨ e = "KeyError: type")) :=
  ⟨by decide, c6_amended (fun _ => true) s0C6 [badRaw] (by decide)⟩

/-! ## `MedicalRAGSystem.get_reference_context`

```python
all_results = []
for test in test_names:
    all_results.extend(self.hybrid_search(test, top_k=top_k))
unique_results = []
seen_content = set()
for res in all_results:
    if res['content'] not in seen_content:
        unique_results.append(res)
        seen_content.add(res['content'])
return unique_results
```
-/

/-- The dedup loop, with `seen` the contents already emitted. -/
def dedupLoop : List (Doc × ℚ) → List String → List (Doc × ℚ)
  | [], _ => []
  | r :: rest, seen =>
      if seen.contains r.1.content then dedupLoop rest seen
      else r :: dedupLoop rest (r.1.content :: seen)

/-- Model of `MedicalRAGSystem.get_reference_context`: run a hybrid search per test
name, concatenate all hits, then keep only the first hit carrying each
content string.  `search` stands for the per-test `hybrid_search` call
(modelled above); the dedup pass is independent of it. -/
def get_reference_context (search : String → List (Doc × ℚ))
    (test_names : List String) : List (Doc × ℚ) :=
  dedupLoop (test_names.flatMap search) []

theorem dedupLoop_not_seen : ∀ (l : List (Doc × ℚ)) (seen : List String),
    ∀ p ∈ dedupLoop l seen, p.1.content ∉ seen
  | [], _, p, hp => absurd hp (List.not_mem_nil p)
  | r :: rest, seen, p, hp => by
      unfold dedupLoop at hp
      by_cases hc : (seen.contains r.1.content) = true
      · rw [if_pos hc] at hp
        exact dedupLoop_not_seen rest seen p hp
      · rw [if_neg hc] at hp
        rcases List.mem_cons.mp hp with rfl | hp2
        · intro hmem
          exact hc (List.elem_eq_true_of_mem hmem)
        · have h3 := dedupLoop_not_seen rest (r.1.content :: seen) p hp2
          intro hmem
          exact h3 (List.mem_cons_of_mem _ hmem)

theorem dedupLoop_nodup : ∀ (l : List (Doc × ℚ)) (seen : List String),
    ((dedupLoop l seen).map (fun p => p.1.content)).Nodup
  | [], _ => by simp [dedupLoop]
  | r :: rest, seen => by
      unfold dedupLoop
      by_cases hc : (seen.contains r.1.content) = true
      · rw [if_pos hc]
        exact dedupLoop_nodup rest seen
      · rw [if_neg hc]
        rw [List.map_cons, List.nodup_cons]
        constructor
        · intro hmem
          obtain ⟨p, hp, hpe⟩ := List.mem_map.mp hmem
          have := dedupLoop_not_seen rest (r.1.content :: seen) p hp
          exact this (hpe ▸ List.mem_cons_self _ _)
        · exact dedupLoop_nodup rest (r.1.content :: seen)

theorem dedupLoop_sublist : ∀ (l : List (Doc × ℚ)) (seen : List String),
    List.Sublist (dedupLoop l seen) l
  | [], _ => List.nil_sublist []
  | r :: rest, seen => by
      unfold dedupLoop
      by_cases hc : (seen.contains r.1.content) = true
      · rw [if_pos hc]
        exact (dedupLoop_sublist rest seen).trans (List.sublist_cons_self _ _)
      · rw [if_neg hc]
        exact List.Sublist.cons₂ r (dedupLoop_sublist rest (r.1.content :: seen))

theorem dedupLoop_complete : ∀ (l : List (Doc × ℚ)) (seen : List String),
    ∀ x ∈ l, x.1.content ∈ seen ∨
      ∃ y ∈ dedupLoop l seen, y.1.content = x.1.content
  | [], _, x, hx => absurd hx (List.not_mem_nil x)
  | r :: rest, seen, x, hx => by
      unfold dedupLoop
      by_cases hc : (seen.contains r.1.content) = true
      · rw [if_pos hc]
        rcases List.mem_cons.mp hx with rfl | hx2
        · exact Or.inl (List.mem_of_elem_eq_true hc)
        · exact dedupLoop_complete rest seen x hx2
      · rw [if_neg hc]
        rcases List.mem_cons.mp hx with rfl | hx2
        · exact Or.inr ⟨x, List.mem_cons_self _ _, rfl⟩
        · rcases dedupLoop_complete rest (r.1.content :: seen) x hx2 with hseen | hfound
          · rcases List.mem_cons.mp hseen with heq | hseen2
            · exact Or.inr ⟨r, List.mem_cons_self _ _, heq.symm⟩
            · exact Or.inl hseen2
          · obtain ⟨y, hy, hye⟩ := hfound
            exact Or.inr ⟨y, List.mem_cons_of_mem _ hy, hye⟩

theorem dedupLoop_first : ∀ (l : List (Doc × ℚ)) (seen : List String),
    ∀ y ∈ dedupLoop l seen, ∃ pre post, l = pre ++ y :: post ∧
      ∀ z ∈ pre, z.1.content ≠ y.1.content
  | [], _, y, hy => absurd hy (List.not_mem_nil y)
  | r :: rest, seen, y, hy => by
      unfold dedupLoop at hy
      by_cases hc : (seen.contains r.1.content) = true
      · rw [if_pos hc] at hy
        obtain ⟨pre, post, hsplit, hpre⟩ := dedupLoop_first rest seen y hy
        have hyne : y.1.content ∉ seen := dedupLoop_not_seen rest seen y hy
        refine ⟨r :: pre, post, by rw [hsplit]; rfl, ?_⟩
        intro z hz
        rcases List.mem_cons.mp hz with rfl | hz2
        · intro hcontra
          exact hyne (hcontra ▸ List.mem_of_elem_eq_true hc)
        · exact hpre z hz2
      · rw [if_neg hc] at hy
        rcases List.mem_cons.mp hy with rfl | hy2
        · exact ⟨[], rest, rfl, fun z hz => absurd hz (List.not_mem_nil z)⟩
        · obtain ⟨pre, post, hsplit, hpre⟩ :=
            dedupLoop_first rest (r.1.content :: seen) y hy2
          have hyne : y.1.content ∉ r.1.content :: seen :=
            dedupLoop_not_seen rest (r.1.content :: seen) y hy2
          refine ⟨r :: pre, post, by rw [hsplit]; rfl, ?_⟩
          intro z hz
          rcases List.mem_cons.mp hz with rfl | hz2
          · intro hcontra
            exact hyne (hcontra ▸ List.mem_cons_self _ _)
          · exact hpre z hz2

/-- C10.  `get_reference_context` returns hits with pairwise-distinct
content strings: the result is a sublist (order-preserving selection) of
the concatenated per-test hit lists, every gathered content string is
represented, and each kept hit is the FIRST hit of the concatenation
carrying its content string. -/
theorem c10_dedup_first_occurrence (search : String → List (Doc × ℚ))
    (test_names : List String) :
    ((get_reference_context search test_names).map (fun p => p.1.content)).Nodup ∧
    List.Sublist (get_reference_context search test_names)
      (test_names.flatMap search) ∧
    (∀ x ∈ test_names.flatMap search,
      ∃ y ∈ get_reference_context search test_names,
        y.1.content = x.1.content) ∧
    (∀ y ∈ get_reference_context search test_names,
      ∃ pre post, test_names.flatMap search = pre ++ y :: post ∧
        ∀ z ∈ pre, z.1.content ≠ y.1.content) := by
  refine ⟨dedupLoop_nodup _ [], dedupLoop_sublist _ [], ?_, dedupLoop_first _ []⟩
  intro x hx
  rcases dedupLoop_complete (test_names.flatMap search) [] x hx with hseen | hfound
  · exact absurd hseen (List.not_mem_nil _)
  · exact hfound

/-! ## Offline embedding (`OfflineEmbeddingFunction.__call__`)

```python
words = text.lower().split()
embedding = [0.0] * 384
for word in words:
    hash_val = hash(word) % 384
    embedding[hash_val] += 1.0
magnitude = sum(x**2 for x in embedding) ** 0.5
if magnitude > 0:
    embedding = [x / magnitude for x in embedding]
```

Python's built-in `hash` is an opaque process-seeded integer hash; it is
passed in abstractly (`pyhash`), and `% 384` on a possibly negative hash
yields a bucket in `[0, 384)` exactly as `Int.emod` does for a positive
modulus.  The accumulated counts are small integers, so their squares and
sum are exact in floats; the square root is modelled by its exact value
`sqrtMag`, constrained in the theorem by `0 ≤ sqrtMag` and
`sqrtMag * sqrtMag = magnitudeSq`, under which the code's `magnitude > 0`
test is the definition's `0 < sqrtMag` test. -/

/-- The accumulation loop: start from `[0.0]*384` and add 1 at bucket
`hash(word) % 384` per token of `text.lower().split()`. -/
def accVector (pyhash : String → Int) (text : String) : List ℚ :=
  (pyLowerSplit text).foldl
    (fun emb w =>
      emb.set ((pyhash w) % 384).toNat (emb.getD ((pyhash w) % 384).toNat 0 + 1))
    (List.replicate 384 0)

/-- The sum `sum(x**2 for x in embedding)` — the squared magnitude. -/
def magnitudeSq (l : List ℚ) : ℚ :=
  (l.map (fun x => x * x)).sum

/-- Model of `OfflineEmbeddingFunction.__call__` on one input text. -/
def offlineEmbed (pyhash : String → Int) (sqrtMag : ℚ) (text : String) : List ℚ :=
  if 0 < sqrtMag then (accVector pyhash text).map (fun x => x / sqrtMag)
  else accVector pyhash text

theorem foldl_set_length (step : List ℚ → String → List ℚ)
    (hstep : ∀ emb w, (step emb w).length = emb.length) :
    ∀ (ws : List String) (emb : List ℚ), (ws.foldl step emb).length = emb.length
  | [], _ => rfl
  | w :: ws, emb => by
      rw [List.foldl_cons, foldl_set_length step hstep ws (step emb w), hstep]

theorem accVector_length (pyhash : String → Int) (text : String) :
    (accVector pyhash text).length = 384 := by
  unfold accVector
  rw [foldl_set_length _ (fun emb w => List.length_set emb _ _) _ _,
    List.length_replicate]

theorem sum_sq_zero : ∀ (l : List ℚ), (l.map (fun x => x * x)).sum = 0 →
    ∀ x ∈ l, x = 0
  | [], _, x, hx => absurd hx (List.not_mem_nil x)
  | a :: l, h, x, hx => by
      rw [List.map_cons, List.sum_cons] at h
      have h1 : (0:ℚ) ≤ a * a := mul_self_nonneg a
      have h2 : (0:ℚ) ≤ (l.map (fun x => x * x)).sum :=
        List.sum_nonneg (by
          intro v hv
          obtain ⟨b, _, rfl⟩ := List.mem_map.mp hv
          exact mul_self_nonneg b)
      have ha : a * a = 0 := by linarith
      have hrest : (l.map (fun x => x * x)).sum = 0 := by linarith
      rcases List.mem_cons.mp hx with rfl | hx2
      · exact mul_self_eq_zero.mp ha
      · exact sum_sq_zero l hrest x hx2

/-- C9.  The default offline embedding returns a 384-dimensional vector;
when the accumulated vector has magnitude 0 (e.g. an empty or
whitespace-only text) the guard skips the division and the all-zero
vector is returned unchanged, and otherwise the returned vector is exactly
L2-normalised (its squared magnitude is 1) — the normalisation never
divides by zero. -/
theorem c9_offline_embedding (pyhash : String → Int) (text : String) (sqrtMag : ℚ)
    (hnn : 0 ≤ sqrtMag)
    (hsq : sqrtMag * sqrtMag = magnitudeSq (accVector pyhash text)) :
    (offlineEmbed pyhash sqrtMag text).length = 384 ∧
    (magnitudeSq (accVector pyhash text) = 0 →
      offlineEmbed pyhash sqrtMag text = accVector pyhash text ∧
      accVector pyhash text = List.replicate 384 0) ∧
    (0 < magnitudeSq (accVector pyhash text) →
      magnitudeSq (offlineEmbed pyhash sqrtMag text) = 1) := by
  refine ⟨?_, ?_, ?_⟩
  · unfold offlineEmbed
    by_cases h0 : 0 < sqrtMag
    · rw [if_pos h0, List.length_map, accVector_length]
    · rw [if_neg h0, accVector_length]
  · intro hz
    have hs0 : sqrtMag = 0 := by
      have := hsq.trans hz
      exact mul_self_eq_zero.mp this
    constructor
    · unfold offlineEmbed
      rw [if_neg (by rw [hs0]; exact lt_irrefl 0)]
    · have hz2 : ((accVector pyhash text).map (fun x => x * x)).sum = 0 := hz
      have hall : ∀ x ∈ accVector pyhash text, x = 0 := sum_sq_zero _ hz2
      have hrep := List.eq_replicate_of_mem hall
      rwa [accVector_length] at hrep
  · intro hpos
    have hspos : 0 < sqrtMag := by
      rcases lt_or_eq_of_le hnn with hlt | heq
      · exact hlt
      · exfalso
        rw [← heq] at hsq
        simp at hsq
        rw [← hsq] at hpos
        exact lt_irrefl 0 hpos
    unfold offlineEmbed
    rw [if_pos hspos]
    unfold magnitudeSq
    rw [List.map_map]
    have hfun : ((fun x => x * x) ∘ (fun x : ℚ => x / sqrtMag)) =
        (fun x => (x * x) * (sqrtMag * sqrtMag)⁻¹) := by
      funext x
      show (x / sqrtMag) * (x / sqrtMag) = x * x * (sqrtMag * sqrtMag)⁻¹
      rw [div_eq_mul_inv, mul_inv]
      ring
    rw [hfun, List.sum_map_mul_right]
    have hsq2 : sqrtMag * sqrtMag =
        ((accVector pyhash text).map (fun x => x * x)).sum := hsq
    rw [← hsq2]
    exact mul_inv_cancel₀ (ne_of_gt (mul_pos hspos hspos))

/-- A concrete stand-in for Python's opaque string hash. -/
def hashC9 : String → Int := fun _ => 0

/-- The squared magnitude of the all-zero accumulator is 0. -/
theorem magnitudeSq_replicate_zero : ∀ n : Nat, magnitudeSq (List.replicate n (0:ℚ)) = 0
  | 0 => rfl
  | n + 1 => by
      have ih := magnitudeSq_replicate_zero n
      unfold magnitudeSq at ih ⊢
      rw [List.replicate_succ, List.map_cons, List.sum_cons, ih, mul_zero, add_zero]

/-- Witness for `c9_offline_embedding` at the empty text: no tokens are
accumulated, the magnitude is exactly 0 and the float square root is 0, so
the zero-guard branch is exercised. -/
theorem c9_witness :
    (0:ℚ) ≤ 0 ∧
    (0:ℚ) * 0 = magnitudeSq (accVector hashC9 ("")) ∧
    ((offlineEmbed hashC9 0 ("")).length = 384 ∧
     (magnitudeSq (accVector hashC9 ("")) = 0 →
       offlineEmbed hashC9 0 ("") = accVector hashC9 ("") ∧
       accVector hashC9 ("") = List.replicate 384 0) ∧
     (0 < magnitudeSq (accVector hashC9 ("")) →
       magnitudeSq (offlineEmbed hashC9 0 ("")) = 1)) :=
  ⟨le_refl 0,
   by
    have h1 : accVector hashC9 ("") = List.replicate 384 0 := rfl
    rw [h1, magnitudeSq_replicate_zero]
    exact mul_zero 0,
   c9_offline_embedding hashC9 ("") 0 (le_refl 0)
    (by
      have h1 : accVector hashC9 ("") = List.replicate 384 0 := rfl
      rw [h1, magnitudeSq_replicate_zero]
      exact mul_zero 0)⟩
